import Mathlib

/-- The character class matched by the JavaScript regex `\s` and stripped by
`String.prototype.trim`. -/
def isJsWs (c : Char) : Bool :=
  c == ' ' || c == '\t' || c == '\n' || c == '\r' || c == '\x0b' || c == '\x0c' ||
  c.toNat == 0xa0 || c.toNat == 0x1680 ||
  (decide (0x2000 ≤ c.toNat) && decide (c.toNat ≤ 0x200a)) ||
  c.toNat == 0x2028 || c.toNat == 0x2029 || c.toNat == 0x202f || c.toNat == 0x205f ||
  c.toNat == 0x3000 || c.toNat == 0xfeff

/-- Sentence-terminating punctuation, the class `[.!?]` of
`findLastSentenceBreak`. -/
def isSentencePunct (c : Char) : Bool :=
  c == '.' || c == '!' || c == '?'

/-- Leading-whitespace removal, the left half of JavaScript `trim()`. -/
def trimLeftWs (l : List Char) : List Char := l.dropWhile isJsWs

/-- Trailing-whitespace removal, the right half of JavaScript `trim()`. -/
def trimRightWs (l : List Char) : List Char := (l.reverse.dropWhile isJsWs).reverse

/-- JavaScript `String.prototype.trim`. -/
def jsTrim (l : List Char) : List Char := trimRightWs (trimLeftWs l)

/-- Helper for `findLastSentenceBreak`: scans the text from position `i`,
returning the largest end-position of a match of `[.!?]\s` (position of the
punctuation plus 2) or of `[.!?]$` (the text length), or `-1` when there is
no match.  This is the value `match.index + match[0].length` maximised over
all matches of the two patterns in `messageChunker.ts` lines 71-88. -/
def findLastSentenceBreakAux : List Char → Nat → Int
  | [], _ => -1
  | [c], i => if isSentencePunct c then (i : Int) + 1 else -1
  | c1 :: c2 :: rest, i =>
    let later := findLastSentenceBreakAux (c2 :: rest) (i + 1)
    if isSentencePunct c1 && isJsWs c2 then max later ((i : Int) + 2) else later

/-- `findLastSentenceBreak` of `messageChunker.ts`: the index just after the
last sentence-ending punctuation (followed by whitespace, or at the end of
the text), or `-1` if none exists. -/
def findLastSentenceBreak (l : List Char) : Int := findLastSentenceBreakAux l 0

/-- Helper for `jsLastIndexOf`, scanning with explicit positions. -/
def jsLastIndexOfAux (c : Char) (fromIdx : Nat) : List Char → Nat → Int
  | [], _ => -1
  | x :: xs, i =>
    let later := jsLastIndexOfAux c fromIdx xs (i + 1)
    if x == c && decide (i ≤ fromIdx) then max later (i : Int) else later

/-- JavaScript `String.prototype.lastIndexOf(c, fromIdx)` for a single
character: the largest index `i ≤ fromIdx` holding `c`, or `-1`. -/
def jsLastIndexOf (l : List Char) (c : Char) (fromIdx : Nat) : Int :=
  jsLastIndexOfAux c fromIdx l 0

/-- The cut-point selection of `chunkMessage` (`messageChunker.ts` lines
30-51): try the last sentence break of the window, then the last newline,
then the last space, each accepted only when strictly past half of
`maxLength` (the JavaScript test `break > maxLength * 0.5`, exact for
doubles); otherwise hard-cut at `maxLength`. -/
def selectChunkEnd (r : List Char) (m : Nat) : Nat :=
  let sb := findLastSentenceBreak (r.take m)
  if 0 < sb ∧ (m : Int) < 2 * sb then sb.toNat
  else
    let nb := jsLastIndexOf r '\n' m
    if 0 < nb ∧ (m : Int) < 2 * nb then nb.toNat
    else
      let spb := jsLastIndexOf r ' ' m
      if 0 < spb ∧ (m : Int) < 2 * spb then spb.toNat
      else m

/-- The `while` loop of `chunkMessage` (lines 23-61), with explicit fuel.
`chunkMessage` supplies fuel `text.length + 1`, which is proved sufficient
for every `maxLength ≥ 1`. -/
def chunkLoop (m : Nat) : Nat → List Char → List (List Char)
  | 0, _ => []
  | fuel + 1, r =>
    if r.length = 0 then []
    else if r.length ≤ m then [r]
    else
      let ce := selectChunkEnd r m
      let chunk := jsTrim (r.take ce)
      let rest := jsTrim (r.drop ce)
      if chunk.length = 0 then chunkLoop m fuel rest
      else chunk :: chunkLoop m fuel rest

/-- `chunkMessage` of `src/utils/messageChunker.ts`. -/
def chunkMessage (text : List Char) (m : Nat) : List (List Char) :=
  if text.length ≤ m then [text] else chunkLoop m (text.length + 1) text

/-- `chunksRejoin s cs` decides whether `s` equals the chunks `cs`
concatenated in order with a (possibly empty) run of whitespace re-inserted
between consecutive chunks — i.e. whether `cs` is obtained from `s` by
deleting only whitespace lying between chunks. -/
def chunksRejoin : List Char → List (List Char) → Bool
  | s, [] => s.isEmpty
  | s, c :: cs =>
    s.take c.length == c && chunksRejoin ((s.drop c.length).dropWhile isJsWs) cs

/-- Message roles of the chat API. -/
inductive Role where
  | system
  | user
  | assistant
deriving DecidableEq, Repr

/-- A chat message as sent to the completion endpoint. -/
structure ChatMessage where
  role : Role
  content : String
deriving DecidableEq, Repr

/-- The fixed system prompt of the retry-enabled `ChatService`. -/
def systemPrompt : String :=
  "Be concise, conversational, and friendly, responding in at most a couple of sentences."

/-- `sendChatRequest` prepends the system prompt unless the first message
already has role `system`. -/
def messagesWithSystem (messages : List ChatMessage) : List ChatMessage :=
  match messages with
  | m :: _ =>
    if m.role = Role.system then messages
    else ⟨Role.system, systemPrompt⟩ :: messages
  | [] => ⟨Role.system, systemPrompt⟩ :: messages

/-- Outcome of one `fetch` to the completion endpoint as observed by one
attempt of `sendChatRequest`: the transport throws, or the response is
non-ok, or the parsed body has no choices, or it carries
`choices[0].message.content` (possibly empty). -/
inductive FetchResult where
  | netError (msg : String)
  | httpError (status : Nat) (statusText : String) (body : String)
  | noChoices
  | content (s : String)
deriving DecidableEq, Repr

/-- The try-block of one attempt of `sendChatRequest`: the returned content
on success, or the message of the error thrown for a non-ok response, a
missing choices array, or empty content (JavaScript falsiness of the
string). -/
def attemptResult (fr : FetchResult) : Except String String :=
  match fr with
  | .netError msg => .error msg
  | .httpError status statusText body =>
    .error ("Chat API error: " ++ toString status ++ " " ++ statusText ++ " - " ++ body)
  | .noChoices => .error "No choices in chat completion response"
  | .content s => if s = "" then .error "No content in chat completion response" else .ok s

/-- `const maxRetries = 9` — 10 total requests (1 initial + 9 retries). -/
def maxRetries : Nat := 9

/-- The terminal failure message thrown after all retries are exhausted,
carrying the last observed error message. -/
def exhaustedMsg (lastErr : String) : String :=
  "Failed to get chat response after " ++ toString (maxRetries + 1) ++ " attempts: " ++ lastErr

/-- The retry for-loop of `sendChatRequest` over the remaining attempt
indices, paired with the number of transport invocations it makes.  On the
last index a failure breaks out of the loop and the exhausted-retries error
is thrown with that last error message.  (The empty-list case is the
JavaScript loop never running, which would interpolate an undefined last
error; `sendChatRequest` always passes a non-empty index list.) -/
def runAttempts (transport : Nat → FetchResult) : List Nat → Except String String × Nat
  | [] => (.error (exhaustedMsg "undefined"), 0)
  | [i] =>
    match attemptResult (transport i) with
    | .ok c => (.ok c, 1)
    | .error e => (.error (exhaustedMsg e), 1)
  | i :: j :: rest =>
    match attemptResult (transport i) with
    | .ok c => (.ok c, 1)
    | .error _ =>
      let p := runAttempts transport (j :: rest)
      (p.1, p.2 + 1)

/-- `ChatService.sendChatRequest` (retry-enabled variant, without status
observer): up to `maxRetries + 1 = 10` attempts, returning the first
successful non-empty content, or the exhausted-retries error carrying the
last observed error message, together with the number of transport
invocations.  The transport is `fetch` with the request body built from
`messagesWithSystem`. -/
def sendChatRequest (messages : List ChatMessage)
    (transport : List ChatMessage → Nat → FetchResult) : Except String String × Nat :=
  runAttempts (transport (messagesWithSystem messages)) (List.range (maxRetries + 1))

/-- Status events of the completion client: the tagged variant
`{thinking} | {retrying, attempt, maxAttempts, error}`. -/
inductive StatusEvent where
  | thinking
  | retrying (attempt : Nat) (maxAttempts : Nat) (error : String)
deriving DecidableEq, Repr

/-- Modelled from the spec: the retry loop of the status-observer variant of
`ChatService.sendChatRequest`, whose TypeScript source is not in the
repository snapshot (only its tests and its caller
`handlers/messageCreate.ts` are).  After each failed attempt except the
final one it emits `{retrying, attempt, maxAttempts: 10, error}` with the
1-based attempt number; the final attempt emits no retry event on failure.
Returns the result, the number of transport invocations, and the emitted
events in order. -/
def runAttemptsStatus (transport : Nat → FetchResult) :
    List Nat → Except String String × Nat × List StatusEvent
  | [] => (.error (exhaustedMsg "undefined"), 0, [])
  | [i] =>
    match attemptResult (transport i) with
    | .ok c => (.ok c, 1, [])
    | .error e => (.error (exhaustedMsg e), 1, [])
  | i :: j :: rest =>
    match attemptResult (transport i) with
    | .ok c => (.ok c, 1, [])
    | .error e =>
      let p := runAttemptsStatus transport (j :: rest)
      (p.1, p.2.1 + 1, .retrying (i + 1) (maxRetries + 1) e :: p.2.2)

/-- Modelled from the spec: the status-observer variant of
`ChatService.sendChatRequest` (source not in the repository snapshot).  It
emits `{thinking}` once, before the very first attempt, then runs the same
10-attempt retry loop while reporting retries to the observer. -/
def sendChatRequestStatus (messages : List ChatMessage)
    (transport : List ChatMessage → Nat → FetchResult) :
    Except String String × Nat × List StatusEvent :=
  let p := runAttemptsStatus (transport (messagesWithSystem messages))
    (List.range (maxRetries + 1))
  (p.1, p.2.1, StatusEvent.thinking :: p.2.2)

/-- The system prompt of `ChatService.generateThreadName`. -/
def threadNamePrompt : String :=
  "Based on the following user message, generate a concise thread name that summarizes the topic. The thread name must be no more than 50 characters. Respond with ONLY the thread name, no quotes, no explanations."

/-- `ChatService.generateThreadName`: asks the model for a name, trims it
and truncates it to 50 characters; falls back to "Chat" when the call
throws or the trimmed reply is empty. -/
def generateThreadName (userMessage : String)
    (transport : List ChatMessage → Nat → FetchResult) : String :=
  match (sendChatRequest [⟨Role.system, threadNamePrompt⟩, ⟨Role.user, userMessage⟩]
      transport).1 with
  | .error _ => "Chat"
  | .ok response =>
    let threadName := ((jsTrim response.toList).take 50).asString
    if threadName = "" then "Chat" else threadName

/-- A Discord user as seen by the thread service. -/
structure DUser where
  id : String
  bot : Bool
deriving DecidableEq, Repr

/-- The thread's starter message: interaction metadata may carry the
invoking user (`interactionMetadata?.user`), with the deprecated
`interaction?.user` as fallback. -/
structure StarterMessage where
  interactionMetadataUser : Option DUser
  interactionUser : Option DUser
deriving DecidableEq, Repr

/-- The channel of an inbound message: a thread (whose starter-message
fetch either resolves — possibly to no message — or rejects), or any other
channel kind. -/
inductive ChannelKind where
  | thread (starterFetch : Except String (Option StarterMessage))
  | other
deriving Repr

/-- `ThreadService.getThreadAuthorId`: fetch the starter message; take the
user from `interactionMetadata?.user || interaction?.user`; any rejection
of the fetch is caught and yields null, as do a missing starter message and
missing metadata. -/
def getThreadAuthorId (starterFetch : Except String (Option StarterMessage)) :
    Option String :=
  match starterFetch with
  | .error _ => none
  | .ok none => none
  | .ok (some sm) =>
    match sm.interactionMetadataUser with
    | some u => some u.id
    | none =>
      match sm.interactionUser with
      | some u => some u.id
      | none => none

/-- An inbound message: its author and its channel. -/
structure DMessage where
  author : DUser
  channel : ChannelKind

/-- `ThreadService.shouldProcessMessage`: ignore bot authors, ignore
non-thread channels, resolve the thread owner from the starter message
(`if (!authorId) return false` — JavaScript falsiness, so a null or empty
owner id rejects), and accept only when the author's id equals the owner
id.  The bot id parameter is unused in the source (`_botId`). -/
def shouldProcessMessage (msg : DMessage) (botId : String) : Bool :=
  if msg.author.bot then false
  else
    match msg.channel with
    | ChannelKind.other => false
    | ChannelKind.thread starterFetch =>
      match getThreadAuthorId starterFetch with
      | none => false
      | some authorId => if authorId = "" then false else msg.author.id == authorId

/-- A stored thread message as fetched from the message store. -/
structure StoredMessage where
  content : String
  system : Bool
  authorBot : Bool
  createdTimestamp : Nat
deriving DecidableEq, Repr

/-- `thread.messages.fetch({limit})`: the most recent `limit` stored
messages, returned newest first (discord.js collections iterate in reverse
chronological order); `timeline` is the thread's full message history,
oldest first. -/
def fetchMessages (timeline : List StoredMessage) (limit : Nat) : List StoredMessage :=
  timeline.reverse.take limit

/-- The skip condition of the history loop: `if (!msg.content || msg.system)
continue` — keep a message iff its content is non-empty (JavaScript
truthiness) and it is not a system message. -/
def keepMessage (msg : StoredMessage) : Bool := !(msg.content == "" || msg.system)

/-- The role mapping of the history loop: bot authors become `assistant`,
humans become `user`. -/
def toHistoryEntry (msg : StoredMessage) : ChatMessage :=
  if msg.authorBot then ⟨Role.assistant, msg.content⟩ else ⟨Role.user, msg.content⟩

/-- One step of the history loop: skip or convert. -/
def toChatMessage (msg : StoredMessage) : Option ChatMessage :=
  if keepMessage msg then some (toHistoryEntry msg) else none

/-- The sort comparator `(a, b) => a.createdTimestamp - b.createdTimestamp`
as a boolean order for the stable sort (`Array.prototype.sort` is stable). -/
def tsLe (a b : StoredMessage) : Bool := decide (a.createdTimestamp ≤ b.createdTimestamp)

/-- `ThreadService.buildConversationHistory`: fetch up to `limit` (the
source default is 50) most-recent messages, sort ascending by creation
timestamp with a stable sort, then convert, skipping system and
empty-content entries. -/
def buildConversationHistory (timeline : List StoredMessage) (limit : Nat) :
    List ChatMessage :=
  (((fetchMessages timeline limit).mergeSort tsLe).filterMap toChatMessage)

/-- The stored messages that survive the skip condition, in their sorted
order: `buildConversationHistory` is their image under `toHistoryEntry`. -/
def sortedEligible (timeline : List StoredMessage) (limit : Nat) : List StoredMessage :=
  ((fetchMessages timeline limit).mergeSort tsLe).filter keepMessage

/-! ### Whitespace and trim lemmas -/

theorem trimLeftWs_append_ws (w l : List Char) (h : ∀ c ∈ w, isJsWs c) :
    trimLeftWs (w ++ l) = trimLeftWs l := by
  simp [trimLeftWs, List.dropWhile_append_of_pos h]

theorem trimLeftWs_eq_nil_iff {l : List Char} :
    trimLeftWs l = [] ↔ ∀ c ∈ l, isJsWs c := by
  simp [trimLeftWs, List.dropWhile_eq_nil_iff]

theorem trimRightWs_eq_nil_iff {l : List Char} :
    trimRightWs l = [] ↔ ∀ c ∈ l, isJsWs c := by
  simp [trimRightWs, List.dropWhile_eq_nil_iff]

theorem trimRightWs_append_ws (l w : List Char) (h : ∀ c ∈ w, isJsWs c) :
    trimRightWs (l ++ w) = trimRightWs l := by
  have h' : ∀ c ∈ w.reverse, isJsWs c := by simpa using h
  simp [trimRightWs, List.dropWhile_append_of_pos h']

theorem trimRightWs_append_left (x y : List Char) (hy : ¬ ∀ c ∈ y, isJsWs c) :
    trimRightWs (x ++ y) = x ++ trimRightWs y := by
  have h1 : ¬ (y.reverse.dropWhile isJsWs).isEmpty = true := by
    rw [List.isEmpty_iff, List.dropWhile_eq_nil_iff]
    simpa using hy
  simp only [trimRightWs, List.reverse_append, List.dropWhile_append, if_neg h1,
    List.reverse_append, List.reverse_reverse]

theorem trimRightWs_decomp (l : List Char) :
    ∃ w, l = trimRightWs l ++ w ∧ ∀ c ∈ w, isJsWs c := by
  refine ⟨(l.reverse.takeWhile isJsWs).reverse, ?_, ?_⟩
  · rw [trimRightWs, ← List.reverse_append, List.takeWhile_append_dropWhile,
      List.reverse_reverse]
  · intro c hc
    exact List.mem_takeWhile_imp (by simpa using hc)

theorem trimLeftWs_head_not_ws : ∀ {l : List Char} {c : Char} {t : List Char},
    trimLeftWs l = c :: t → isJsWs c = false := by
  intro l
  induction l with
  | nil => intro c t h; simp [trimLeftWs] at h
  | cons x xs ih =>
    intro c t h
    rw [trimLeftWs, List.dropWhile_cons] at h
    split at h
    · exact ih h
    · next hws =>
      cases h
      simpa using hws

theorem trimLeftWs_eq_self_of_head {c : Char} {t : List Char} (h : isJsWs c = false) :
    trimLeftWs (c :: t) = c :: t := by
  rw [trimLeftWs, List.dropWhile_cons_of_neg (by simp [h])]

theorem trimRightWs_idem (l : List Char) : trimRightWs (trimRightWs l) = trimRightWs l := by
  simp [trimRightWs, List.reverse_reverse, List.dropWhile_idempotent]

theorem jsTrim_head_not_ws {l : List Char} {c : Char} {t : List Char} (h : jsTrim l = c :: t) :
    isJsWs c = false := by
  obtain ⟨w, hw, _⟩ := trimRightWs_decomp (trimLeftWs l)
  rw [jsTrim] at h
  rw [h] at hw
  exact trimLeftWs_head_not_ws (l := l) (by rw [hw]; rfl)

theorem jsTrim_eq_nil_iff {l : List Char} : jsTrim l = [] ↔ ∀ c ∈ l, isJsWs c := by
  rw [jsTrim, trimRightWs_eq_nil_iff]
  constructor
  · intro h c hc
    rw [← List.takeWhile_append_dropWhile (p := isJsWs) (l := l)] at hc
    rcases List.mem_append.mp hc with hc' | hc'
    · exact List.mem_takeWhile_imp hc'
    · exact h c hc'
  · intro h c hc
    exact h c ((List.dropWhile_sublist isJsWs).mem hc)

theorem jsTrim_idem (l : List Char) : jsTrim (jsTrim l) = jsTrim l := by
  cases h : jsTrim l with
  | nil => rfl
  | cons c t =>
    have hc := jsTrim_head_not_ws h
    rw [jsTrim, trimLeftWs_eq_self_of_head hc]
    rw [← h, jsTrim, trimRightWs_idem]

theorem trimLeft_trimRight_comm (l : List Char) :
    trimLeftWs (trimRightWs l) = trimRightWs (trimLeftWs l) := by
  by_cases hall : ∀ c ∈ l, isJsWs c
  · rw [trimRightWs_eq_nil_iff.mpr hall, trimLeftWs_eq_nil_iff.mpr hall]
    rfl
  · cases hd : trimLeftWs l with
    | nil => exact absurd (trimLeftWs_eq_nil_iff.mp hd) hall
    | cons c t =>
      have hc := trimLeftWs_head_not_ws hd
      have hy : ¬ ∀ x ∈ (c :: t : List Char), isJsWs x := by
        intro hx
        have := hx c (by simp)
        rw [hc] at this
        exact Bool.false_ne_true this
      have h1 : trimRightWs l = l.takeWhile isJsWs ++ trimRightWs (c :: t) := by
        conv_lhs => rw [← List.takeWhile_append_dropWhile (p := isJsWs) (l := l)]
        rw [show l.dropWhile isJsWs = c :: t from hd]
        exact trimRightWs_append_left _ _ hy
      have h2 : trimLeftWs (l.takeWhile isJsWs ++ trimRightWs (c :: t)) =
          trimLeftWs (trimRightWs (c :: t)) :=
        trimLeftWs_append_ws _ _ (fun x hx => List.mem_takeWhile_imp hx)
      rw [h1, h2]
      cases hr : trimRightWs (c :: t) with
      | nil => rfl
      | cons c2 t2 =>
        obtain ⟨w, hw, _⟩ := trimRightWs_decomp (c :: t)
        rw [hr] at hw
        have hc2 : c2 = c := by
          have hw' : c :: t = c2 :: (t2 ++ w) := by simpa using hw
          exact (List.cons.inj hw').1.symm
        rw [hc2]
        exact trimLeftWs_eq_self_of_head hc

theorem jsTrim_append_ws_left (a b : List Char) (h : ∀ c ∈ a, isJsWs c) :
    jsTrim (a ++ b) = jsTrim b := by
  rw [jsTrim, trimLeftWs_append_ws a b h]; rfl

theorem jsTrim_append_decomp (a b : List Char) (h : jsTrim a ≠ []) :
    ∃ mid, jsTrim (a ++ b) = jsTrim a ++ mid ∧ mid.dropWhile isJsWs = jsTrim b := by
  cases hu : trimLeftWs a with
  | nil => exact absurd (by rw [jsTrim, hu]; rfl) h
  | cons c t =>
    have hc : isJsWs c = false := trimLeftWs_head_not_ws hu
    have ha : a = a.takeWhile isJsWs ++ (c :: t) := by
      rw [← hu]
      exact (List.takeWhile_append_dropWhile (p := isJsWs) (l := a)).symm
    have h1 : jsTrim (a ++ b) = trimRightWs (c :: (t ++ b)) := by
      rw [jsTrim]
      conv_lhs => rw [ha]
      rw [List.append_assoc, trimLeftWs_append_ws _ _ (fun x hx => List.mem_takeWhile_imp hx),
        List.cons_append, trimLeftWs_eq_self_of_head hc]
    have hja : jsTrim a = trimRightWs (c :: t) := by rw [jsTrim, hu]
    by_cases hb : ∀ x ∈ b, isJsWs x
    · refine ⟨[], ?_, ?_⟩
      · rw [h1, List.append_nil, hja, show (c :: (t ++ b)) = (c :: t) ++ b by simp]
        exact trimRightWs_append_ws _ _ hb
      · exact (jsTrim_eq_nil_iff.mpr hb).symm
    · obtain ⟨w, hw, hws⟩ := trimRightWs_decomp (c :: t)
      refine ⟨w ++ trimRightWs b, ?_, ?_⟩
      · rw [h1, show (c :: (t ++ b)) = (c :: t) ++ b by simp,
          trimRightWs_append_left _ _ hb, hja]
        conv_lhs => rw [hw]
        rw [List.append_assoc]
      · show trimLeftWs (w ++ trimRightWs b) = jsTrim b
        rw [trimLeftWs_append_ws _ _ hws, trimLeft_trimRight_comm]
        rfl

/-! ### Bounds for the break searches and the cut point -/

theorem findLastSentenceBreakAux_le : ∀ (l : List Char) (i : Nat),
    findLastSentenceBreakAux l i ≤ (i : Int) + l.length
  | [], i => by simp [findLastSentenceBreakAux]; omega
  | [c], i => by
    simp only [findLastSentenceBreakAux, List.length_cons, List.length_nil]
    split <;> push_cast <;> omega
  | c1 :: c2 :: rest, i => by
    have ih := findLastSentenceBreakAux_le (c2 :: rest) (i + 1)
    simp only [findLastSentenceBreakAux, List.length_cons] at ih ⊢
    split
    · rw [max_le_iff]
      constructor <;> push_cast at ih ⊢ <;> omega
    · push_cast at ih ⊢
      omega

theorem jsLastIndexOfAux_le (c : Char) (f : Nat) : ∀ (l : List Char) (i : Nat),
    jsLastIndexOfAux c f l i ≤ (f : Int)
  | [], i => by simp [jsLastIndexOfAux]; omega
  | x :: xs, i => by
    have ih := jsLastIndexOfAux_le c f xs (i + 1)
    simp only [jsLastIndexOfAux]
    split
    · next hcond =>
      rw [max_le_iff]
      refine ⟨ih, ?_⟩
      have : i ≤ f := of_decide_eq_true (Bool.and_elim_right hcond)
      omega
    · exact ih

theorem selectChunkEnd_le (r : List Char) (m : Nat) : selectChunkEnd r m ≤ m := by
  have hsb : findLastSentenceBreak (r.take m) ≤ ((r.take m).length : Int) := by
    have := findLastSentenceBreakAux_le (r.take m) 0
    rw [findLastSentenceBreak]
    omega
  have hlen : (r.take m).length ≤ m := by rw [List.length_take]; omega
  have hnb : jsLastIndexOf r '\n' m ≤ (m : Int) := jsLastIndexOfAux_le '\n' m r 0
  have hsp : jsLastIndexOf r ' ' m ≤ (m : Int) := jsLastIndexOfAux_le ' ' m r 0
  simp only [selectChunkEnd]
  split
  · next h => omega
  · split
    · next h => omega
    · split
      · next h => omega
      · exact Nat.le_refl m

theorem selectChunkEnd_pos (r : List Char) (m : Nat) (hm : 1 ≤ m) : 1 ≤ selectChunkEnd r m := by
  simp only [selectChunkEnd]
  split
  · next h => omega
  · split
    · next h => omega
    · split
      · next h => omega
      · exact hm

theorem trimRightWs_length_le (l : List Char) : (trimRightWs l).length ≤ l.length := by
  have := (List.dropWhile_sublist (l := l.reverse) isJsWs).length_le
  simpa [trimRightWs] using this

theorem jsTrim_length_le (l : List Char) : (jsTrim l).length ≤ l.length :=
  le_trans (trimRightWs_length_le _)
    (by simpa [trimLeftWs] using (List.dropWhile_sublist (l := l) isJsWs).length_le)

/-! ### Chunk size bound (C4) -/

theorem chunkLoop_length_le (m : Nat) : ∀ (fuel : Nat) (r : List Char),
    ∀ ch ∈ chunkLoop m fuel r, ch.length ≤ m
  | 0, r => by simp [chunkLoop]
  | fuel + 1, r => by
    intro ch hch
    simp only [chunkLoop] at hch
    split at hch
    · simp at hch
    · split at hch
      · next h2 =>
        rw [List.mem_singleton] at hch
        subst hch
        exact h2
      · split at hch
        · exact chunkLoop_length_le m fuel _ ch hch
        · rcases List.mem_cons.mp hch with h | h
          · subst h
            calc (jsTrim (r.take (selectChunkEnd r m))).length
                ≤ (r.take (selectChunkEnd r m)).length := jsTrim_length_le _
              _ ≤ selectChunkEnd r m := by rw [List.length_take]; omega
              _ ≤ m := selectChunkEnd_le r m
          · exact chunkLoop_length_le m fuel _ ch h

/-- C4: for every input text and every maxLength > 0, every chunk returned by
`chunkMessage text maxLength` has length at most maxLength. -/
theorem chunkMessage_chunk_length_le (text : List Char) (m : Nat) (hm : 0 < m) :
    ∀ ch ∈ chunkMessage text m, ch.length ≤ m := by
  intro ch hch
  rw [chunkMessage] at hch
  split at hch
  · next h =>
    rw [List.mem_singleton] at hch
    subst hch
    exact h
  · exact chunkLoop_length_le m _ text ch hch

theorem chunkMessage_chunk_length_le_witness :
    0 < 8 ∧ ∀ ch ∈ chunkMessage "ab. cdefghij".toList 8, ch.length ≤ 8 :=
  ⟨by decide, chunkMessage_chunk_length_le "ab. cdefghij".toList 8 (by decide)⟩

/-! ### Non-empty chunks (C8) -/

theorem chunkLoop_ne_nil (m : Nat) : ∀ (fuel : Nat) (r : List Char),
    ∀ ch ∈ chunkLoop m fuel r, ch ≠ []
  | 0, r => by simp [chunkLoop]
  | fuel + 1, r => by
    intro ch hch
    simp only [chunkLoop] at hch
    split at hch
    · simp at hch
    · next h0 =>
      split at hch
      · rw [List.mem_singleton] at hch
        subst hch
        exact fun hnil => h0 (by simp [hnil])
      · split at hch
        · exact chunkLoop_ne_nil m fuel _ ch hch
        · next h3 =>
          rcases List.mem_cons.mp hch with h | h
          · subst h
            exact fun hnil => h3 (by simp [hnil])
          · exact chunkLoop_ne_nil m fuel _ ch h

/-- C8 counterexample: for the empty input text and maxLength 1 the function
returns `[""]`, so not every returned chunk is non-empty. -/
theorem chunkMessage_empty_chunk_counterexample :
    chunkMessage ([] : List Char) 1 = [[]] ∧
    ¬ (∀ ch ∈ chunkMessage ([] : List Char) 1, ch ≠ []) := by
  refine ⟨rfl, fun h => ?_⟩
  exact h [] (by simp [chunkMessage]) rfl

/-- C8 (amended): for every non-empty input text and every maxLength > 0,
every chunk returned by `chunkMessage` is non-empty.  (The empty input is
returned verbatim as the single chunk `""`.) -/
theorem chunkMessage_chunks_ne_nil (text : List Char) (m : Nat) (hm : 0 < m)
    (htext : text ≠ []) : ∀ ch ∈ chunkMessage text m, ch ≠ [] := by
  intro ch hch
  rw [chunkMessage] at hch
  split at hch
  · rw [List.mem_singleton] at hch
    subst hch
    exact htext
  · exact chunkLoop_ne_nil m _ text ch hch

theorem chunkMessage_chunks_ne_nil_witness :
    0 < 1 ∧ "ab".toList ≠ [] ∧ ∀ ch ∈ chunkMessage "ab".toList 1, ch ≠ [] :=
  ⟨by decide, by decide, chunkMessage_chunks_ne_nil "ab".toList 1 (by decide) (by decide)⟩

/-! ### Termination of the carving loop (C9) -/

theorem chunkLoop_rest_length_lt (r : List Char) (m : Nat) (hm : 1 ≤ m) (hr : m < r.length) :
    (jsTrim (r.drop (selectChunkEnd r m))).length < r.length := by
  have h1 := jsTrim_length_le (r.drop (selectChunkEnd r m))
  have h2 : (r.drop (selectChunkEnd r m)).length = r.length - selectChunkEnd r m :=
    List.length_drop _ _
  have h3 := selectChunkEnd_pos r m hm
  omega

theorem chunkLoop_fuel_eq (m : Nat) (hm : 1 ≤ m) :
    ∀ (fuel : Nat) (r : List Char), r.length < fuel →
      chunkLoop m fuel r = chunkLoop m (r.length + 1) r := by
  intro fuel
  induction fuel using Nat.strong_induction_on with
  | _ fuel ih =>
    intro r hr
    match fuel, hr with
    | 0, hr => omega
    | fuel + 1, hr =>
      by_cases h0 : r.length = 0
      · simp [chunkLoop, h0]
      · by_cases h1 : r.length ≤ m
        · simp [chunkLoop, h0, h1]
        · have hrest := chunkLoop_rest_length_lt r m hm (by omega)
          simp only [chunkLoop, if_neg h0, if_neg h1]
          rw [ih fuel (by omega) _ (by omega), ih r.length (by omega) _ (by omega)]

/-- C9: for every maxLength ≥ 1 the carving loop of `chunkMessage`
terminates: each iteration strictly shortens the remaining text, and the
result is independent of any sufficient fuel (in particular of the fuel
`text.length + 1` that `chunkMessage` supplies). -/
theorem chunkMessage_terminates (text : List Char) (m : Nat) (hm : 1 ≤ m) :
    (∀ r : List Char, m < r.length →
        (jsTrim (r.drop (selectChunkEnd r m))).length < r.length) ∧
    (∀ fuel, text.length < fuel →
        chunkLoop m fuel text = chunkLoop m (text.length + 1) text) :=
  ⟨fun r hr => chunkLoop_rest_length_lt r m hm hr,
   fun fuel hf => chunkLoop_fuel_eq m hm fuel text hf⟩

theorem chunkMessage_terminates_witness :
    1 ≤ 1 ∧ 1 < ("ab".toList).length ∧
      (jsTrim ("ab".toList.drop (selectChunkEnd "ab".toList 1))).length < ("ab".toList).length :=
  ⟨by decide, by decide,
    (chunkMessage_terminates "ab".toList 1 (by decide)).1 "ab".toList (by decide)⟩

/-! ### Lossless rejoin up to boundary whitespace (C1) -/

theorem chunkLoop_rejoin (m : Nat) (hm : 1 ≤ m) :
    ∀ (fuel : Nat) (r : List Char), r.length < fuel →
      jsTrim r = r ∨ m < r.length →
      chunksRejoin (jsTrim r) (chunkLoop m fuel r) = true := by
  intro fuel
  induction fuel using Nat.strong_induction_on with
  | _ fuel ih =>
    intro r hr htrim
    match fuel, hr with
    | 0, hr => omega
    | fuel + 1, hr =>
      by_cases h0 : r.length = 0
      · have hnil : r = [] := List.length_eq_zero.mp h0
        subst hnil
        simp [chunkLoop, chunksRejoin, jsTrim, trimLeftWs, trimRightWs]
      · by_cases h1 : r.length ≤ m
        · have hr_trim : jsTrim r = r := htrim.resolve_right (by omega)
          simp only [chunkLoop, if_neg h0, if_pos h1]
          rw [hr_trim]
          simp [chunksRejoin, List.take_length, List.drop_length]
        · have hce1 : 1 ≤ selectChunkEnd r m := selectChunkEnd_pos r m hm
          have hsplit : r.take (selectChunkEnd r m) ++ r.drop (selectChunkEnd r m) = r :=
            List.take_append_drop _ r
          have hrest_lt : (jsTrim (r.drop (selectChunkEnd r m))).length < r.length :=
            chunkLoop_rest_length_lt r m hm (by omega)
          have hrest_trim :
              jsTrim (jsTrim (r.drop (selectChunkEnd r m))) =
                jsTrim (r.drop (selectChunkEnd r m)) := jsTrim_idem _
          simp only [chunkLoop, if_neg h0, if_neg h1]
          by_cases hchunk : (jsTrim (r.take (selectChunkEnd r m))).length = 0
          · rw [if_pos hchunk]
            have hws : ∀ c ∈ r.take (selectChunkEnd r m), isJsWs c :=
              jsTrim_eq_nil_iff.mp (List.length_eq_zero.mp hchunk)
            have heq : jsTrim r = jsTrim (jsTrim (r.drop (selectChunkEnd r m))) := by
              conv_lhs => rw [← hsplit]
              rw [jsTrim_append_ws_left _ _ hws, hrest_trim]
            rw [heq]
            exact ih fuel (by omega) _ (by omega) (Or.inl hrest_trim)
          · rw [if_neg hchunk]
            have hne : jsTrim (r.take (selectChunkEnd r m)) ≠ [] :=
              fun hnil => hchunk (by rw [hnil]; rfl)
            obtain ⟨mid, hmid, hdrop⟩ :=
              jsTrim_append_decomp (r.take (selectChunkEnd r m))
                (r.drop (selectChunkEnd r m)) hne
            rw [hsplit] at hmid
            rw [hmid]
            simp only [chunksRejoin, List.take_left, List.drop_left, hdrop,
              beq_self_eq_true, Bool.true_and]
            have hrec := ih fuel (by omega) _ (by omega) (Or.inl hrest_trim)
            rwa [hrest_trim] at hrec

/-- C1 (amended): for every maxLength ≥ 1 and every text longer than
maxLength, the trimmed original text equals the returned chunks concatenated
in order with the removed (possibly empty) boundary whitespace runs
re-inserted between consecutive chunks; re-inserting a single space instead
restores the original only where the removed run was a single space. -/
theorem chunkMessage_rejoin_ws (text : List Char) (m : Nat) (hm : 1 ≤ m)
    (hlen : m < text.length) :
    chunksRejoin (jsTrim text) (chunkMessage text m) = true := by
  rw [chunkMessage, if_neg (by omega)]
  exact chunkLoop_rejoin m hm (text.length + 1) text (by omega) (Or.inr hlen)

theorem chunkMessage_rejoin_ws_witness :
    1 ≤ 5 ∧ 5 < ("hello world".toList).length ∧
    chunksRejoin (jsTrim "hello world".toList) (chunkMessage "hello world".toList 5) = true :=
  ⟨by decide, by decide,
    chunkMessage_rejoin_ws "hello world".toList 5 (by decide) (by decide)⟩

/-- C1 counterexample: for `text = "ab"` and `maxLength = 1` the chunks are
`["a", "b"]`; the input contains no whitespace at all, so the claim as
stated predicts that joining with a single re-inserted space restores the
trimmed original, yet `"a b" ≠ "ab"`. -/
theorem chunkMessage_space_join_counterexample :
    chunkMessage "ab".toList 1 = [['a'], ['b']] ∧
    List.intercalate [' '] (chunkMessage "ab".toList 1) ≠ jsTrim "ab".toList ∧
    (∀ c ∈ "ab".toList, isJsWs c = false) := by decide

/-! ### The 50 percent boundary threshold (C7) -/

/-- C7 counterexample: with `maxLength = 8` and a sentence boundary at
offset 4 (exactly 50% of the window), the boundary is rejected and the text
is hard-cut at 8 rather than cut at 4. -/
theorem selectChunkEnd_half_counterexample :
    findLastSentenceBreak ("ab. cdefghij".toList.take 8) = 4 ∧
    2 * (4 : Int) = (8 : Int) ∧
    selectChunkEnd "ab. cdefghij".toList 8 = 8 ∧
    chunkMessage "ab. cdefghij".toList 8 = ["ab. cdef".toList, "ghij".toList] := by
  decide

/-- C7 (amended): a candidate boundary is accepted as the cut point only at
an offset strictly greater than 50% of maxLength; a sentence boundary at an
offset exactly equal to 50% of maxLength is never the chosen cut point, and
when no boundary passes the threshold the text is hard-cut at exactly
maxLength. -/
theorem selectChunkEnd_strict_threshold (r : List Char) (m : Nat) :
    ((0 < findLastSentenceBreak (r.take m) ∧
        (m : Int) < 2 * findLastSentenceBreak (r.take m)) →
      selectChunkEnd r m = (findLastSentenceBreak (r.take m)).toNat) ∧
    (0 < m → 2 * findLastSentenceBreak (r.take m) = (m : Int) →
      selectChunkEnd r m ≠ (findLastSentenceBreak (r.take m)).toNat) ∧
    (¬ (0 < findLastSentenceBreak (r.take m) ∧
        (m : Int) < 2 * findLastSentenceBreak (r.take m)) →
     ¬ (0 < jsLastIndexOf r '\n' m ∧ (m : Int) < 2 * jsLastIndexOf r '\n' m) →
     ¬ (0 < jsLastIndexOf r ' ' m ∧ (m : Int) < 2 * jsLastIndexOf r ' ' m) →
      selectChunkEnd r m = m) := by
  refine ⟨?_, ?_, ?_⟩
  · intro h
    simp only [selectChunkEnd, if_pos h]
  · intro hm heq
    have hfail : ¬ (0 < findLastSentenceBreak (r.take m) ∧
        (m : Int) < 2 * findLastSentenceBreak (r.take m)) := by omega
    simp only [selectChunkEnd, if_neg hfail]
    split
    · next h => omega
    · split
      · next h => omega
      · omega
  · intro h1 h2 h3
    simp only [selectChunkEnd, if_neg h1, if_neg h2, if_neg h3]

theorem selectChunkEnd_strict_threshold_witness :
    0 < 8 ∧ 2 * findLastSentenceBreak ("ab. cdefghij".toList.take 8) = (8 : Int) ∧
    selectChunkEnd "ab. cdefghij".toList 8 ≠
      (findLastSentenceBreak ("ab. cdefghij".toList.take 8)).toNat :=
  ⟨by decide, by decide,
    (selectChunkEnd_strict_threshold "ab. cdefghij".toList 8).2.1 (by decide) (by decide)⟩

/-! ### Retry policy of the completion client (C2) -/

theorem range_ten_decomp (k : Nat) (hk : k < 10) :
    List.range 10 = List.range k ++ k :: ((List.range (9 - k)).map fun x => (k + 1) + x) := by
  have h1 : (10 : Nat) = k + ((9 - k) + 1) := by omega
  have hfun : ((fun x => k + x) ∘ Nat.succ) = fun x => (k + 1) + x := by
    funext x
    simp only [Function.comp]
    omega
  simp only [h1, List.range_add, List.range_succ_eq_map, List.map_cons,
    List.map_map, hfun, Nat.add_zero]

theorem runAttempts_count_le (t : Nat → FetchResult) :
    ∀ is : List Nat, (runAttempts t is).2 ≤ is.length
  | [] => by simp [runAttempts]
  | [i] => by
    simp only [runAttempts]
    split <;> simp
  | i :: j :: rest => by
    have ih := runAttempts_count_le t (j :: rest)
    simp only [runAttempts]
    split
    · simp
    · simp only [List.length_cons] at ih ⊢
      omega

theorem runAttempts_head_ok (t : Nat → FetchResult) (i : Nat) (is : List Nat) (c : String)
    (h : attemptResult (t i) = .ok c) : runAttempts t (i :: is) = (.ok c, 1) := by
  cases is <;> simp [runAttempts, h]

theorem runAttempts_cons_fail (t : Nat → FetchResult) (a : Nat) (is : List Nat)
    (hne : is ≠ []) (e : String) (h : attemptResult (t a) = .error e) :
    runAttempts t (a :: is) = ((runAttempts t is).1, (runAttempts t is).2 + 1) := by
  cases is with
  | nil => exact absurd rfl hne
  | cons j rest => simp [runAttempts, h]

theorem runAttempts_prefix_fail_ok (t : Nat → FetchResult) (c : String) :
    ∀ (is₁ : List Nat) (i : Nat) (is₂ : List Nat),
      (∀ j ∈ is₁, ∃ e, attemptResult (t j) = .error e) →
      attemptResult (t i) = .ok c →
      runAttempts t (is₁ ++ i :: is₂) = (.ok c, is₁.length + 1)
  | [], i, is₂, _, hok => by simpa using runAttempts_head_ok t i is₂ c hok
  | a :: is₁, i, is₂, hfail, hok => by
    have ih := runAttempts_prefix_fail_ok t c is₁ i is₂
      (fun j hj => hfail j (by simp [hj])) hok
    obtain ⟨e, he⟩ := hfail a (by simp)
    have hne : is₁ ++ i :: is₂ ≠ [] := by simp
    rw [List.cons_append, runAttempts_cons_fail t a _ hne e he, ih]
    simp [Nat.add_comm]

theorem runAttempts_all_fail (t : Nat → FetchResult) :
    ∀ (is : List Nat) (hne : is ≠ []),
      (∀ i ∈ is, ∃ e, attemptResult (t i) = .error e) →
      ∃ elast, attemptResult (t (is.getLast hne)) = .error elast ∧
        runAttempts t is = (.error (exhaustedMsg elast), is.length)
  | [], hne, _ => absurd rfl hne
  | [i], _, h => by
    obtain ⟨e, he⟩ := h i (by simp)
    exact ⟨e, by simpa using he, by simp [runAttempts, he]⟩
  | i :: j :: rest, _, h => by
    obtain ⟨e, he⟩ := h i (by simp)
    obtain ⟨elast, hlast, heq⟩ :=
      runAttempts_all_fail t (j :: rest) (by simp) (fun x hx => h x (by simp [hx]))
    refine ⟨elast, by simpa [List.getLast_cons] using hlast, ?_⟩
    simp [runAttempts, he, heq]

/-- C2: `sendChatRequest` makes at most 10 transport invocations; a first
successful attempt returns its content immediately after exactly one
invocation; and when every attempt fails, exactly 10 invocations are made
and the call fails with the exhausted-retries error carrying the last
(10th) observed error message. -/
theorem sendChatRequest_retry_policy (messages : List ChatMessage)
    (transport : List ChatMessage → Nat → FetchResult) :
    ((sendChatRequest messages transport).2 ≤ 10) ∧
    (∀ c, attemptResult (transport (messagesWithSystem messages) 0) = .ok c →
      sendChatRequest messages transport = (.ok c, 1)) ∧
    ((∀ i, i < 10 → ∃ e, attemptResult (transport (messagesWithSystem messages) i) = .error e) →
      ∃ e9, attemptResult (transport (messagesWithSystem messages) 9) = .error e9 ∧
        sendChatRequest messages transport = (.error (exhaustedMsg e9), 10)) ∧
    (∀ k c, k < 10 →
      (∀ i, i < k → ∃ e, attemptResult (transport (messagesWithSystem messages) i) = .error e) →
      attemptResult (transport (messagesWithSystem messages) k) = .ok c →
      sendChatRequest messages transport = (.ok c, k + 1)) := by
  refine ⟨?_, ?_, ?_, ?_⟩
  · have h := runAttempts_count_le (transport (messagesWithSystem messages))
      (List.range (maxRetries + 1))
    simpa [sendChatRequest, List.length_range, maxRetries] using h
  · intro c hc
    have hr : List.range (maxRetries + 1) = 0 :: [1, 2, 3, 4, 5, 6, 7, 8, 9] := rfl
    rw [sendChatRequest, hr]
    exact runAttempts_head_ok _ 0 _ c hc
  · intro hfail
    have hne : List.range (maxRetries + 1) ≠ [] := by decide
    obtain ⟨elast, hlast, heq⟩ :=
      runAttempts_all_fail (transport (messagesWithSystem messages))
        (List.range (maxRetries + 1)) hne
        (fun i hi => hfail i (by simpa [maxRetries] using List.mem_range.mp hi))
    refine ⟨elast, ?_, ?_⟩
    · have h9 : (List.range (maxRetries + 1)).getLast hne = 9 := rfl
      rwa [h9] at hlast
    · rw [sendChatRequest, heq]
      rfl
  · intro k c hk hfail hok
    have hr : List.range (maxRetries + 1) = List.range 10 := rfl
    rw [sendChatRequest, hr, range_ten_decomp k hk]
    have heq := runAttempts_prefix_fail_ok (transport (messagesWithSystem messages)) c
      (List.range k) k ((List.range (9 - k)).map fun x => (k + 1) + x)
      (fun j hj => hfail j (List.mem_range.mp hj)) hok
    rw [heq]
    simp

theorem sendChatRequest_retry_policy_witness :
    sendChatRequest [] (fun _ _ => FetchResult.content "hi") = (.ok "hi", 1) :=
  (sendChatRequest_retry_policy [] (fun _ _ => FetchResult.content "hi")).2.1 "hi" rfl

/-! ### Status observer of the completion client (C3) -/

theorem runAttemptsStatus_head_ok (t : Nat → FetchResult) (i : Nat) (is : List Nat)
    (c : String) (h : attemptResult (t i) = .ok c) :
    runAttemptsStatus t (i :: is) = (.ok c, 1, []) := by
  cases is <;> simp [runAttemptsStatus, h]

theorem runAttemptsStatus_cons_fail (t : Nat → FetchResult) (a : Nat) (is : List Nat)
    (hne : is ≠ []) (e : String) (h : attemptResult (t a) = .error e) :
    runAttemptsStatus t (a :: is) =
      ((runAttemptsStatus t is).1, (runAttemptsStatus t is).2.1 + 1,
        StatusEvent.retrying (a + 1) (maxRetries + 1) e :: (runAttemptsStatus t is).2.2) := by
  cases is with
  | nil => exact absurd rfl hne
  | cons j rest => simp [runAttemptsStatus, h]

theorem runAttemptsStatus_no_thinking (t : Nat → FetchResult) :
    ∀ is : List Nat, StatusEvent.thinking ∉ (runAttemptsStatus t is).2.2
  | [] => by simp [runAttemptsStatus]
  | [i] => by
    simp only [runAttemptsStatus]
    split <;> simp
  | i :: j :: rest => by
    have ih := runAttemptsStatus_no_thinking t (j :: rest)
    simp only [runAttemptsStatus]
    split
    · simp
    · simpa using ih

theorem runAttemptsStatus_all_fail (t : Nat → FetchResult) (e : Nat → String) :
    ∀ (is : List Nat) (hne : is ≠ []),
      (∀ i ∈ is, attemptResult (t i) = .error (e i)) →
      runAttemptsStatus t is =
        (.error (exhaustedMsg (e (is.getLast hne))), is.length,
          is.dropLast.map fun j => StatusEvent.retrying (j + 1) (maxRetries + 1) (e j))
  | [], hne, _ => absurd rfl hne
  | [i], _, h => by simp [runAttemptsStatus, h i (by simp)]
  | i :: j :: rest, _, h => by
    have ih := runAttemptsStatus_all_fail t e (j :: rest) (by simp)
      (fun x hx => h x (by simp [hx]))
    rw [runAttemptsStatus_cons_fail t i _ (by simp) (e i) (h i (by simp)), ih]
    simp [List.getLast_cons]

theorem runAttemptsStatus_prefix_fail_ok (t : Nat → FetchResult) (e : Nat → String)
    (c : String) :
    ∀ (is₁ : List Nat) (i : Nat) (is₂ : List Nat),
      (∀ j ∈ is₁, attemptResult (t j) = .error (e j)) →
      attemptResult (t i) = .ok c →
      runAttemptsStatus t (is₁ ++ i :: is₂) =
        (.ok c, is₁.length + 1,
          is₁.map fun j => StatusEvent.retrying (j + 1) (maxRetries + 1) (e j))
  | [], i, is₂, _, hok => by simpa using runAttemptsStatus_head_ok t i is₂ c hok
  | a :: is₁, i, is₂, hfail, hok => by
    have ih := runAttemptsStatus_prefix_fail_ok t e c is₁ i is₂
      (fun j hj => hfail j (by simp [hj])) hok
    have hne : is₁ ++ i :: is₂ ≠ [] := by simp
    rw [List.cons_append, runAttemptsStatus_cons_fail t a _ hne (e a) (hfail a (by simp)), ih]
    simp [Nat.add_comm]

/-- C3: during one observed `sendChatRequest` call, the observer sees
`{thinking}` exactly once (at the start, never again); with an
always-failing transport it sees `{thinking}` then exactly 9 `{retrying}`
events (none for the final attempt) across exactly 10 transport
invocations; with a transport failing k < 10 times before succeeding it is
invoked exactly k + 1 times, seeing `{thinking}` then k `{retrying}` events
carrying the 1-based attempt number, maxAttempts 10, and the attempt's
error message. -/
theorem sendChatRequestStatus_observer (messages : List ChatMessage)
    (transport : List ChatMessage → Nat → FetchResult) (e : Nat → String) (c : String) :
    (((sendChatRequestStatus messages transport).2.2).countP
        (fun ev => ev = StatusEvent.thinking) = 1) ∧
    ((∀ i, i < 10 → attemptResult (transport (messagesWithSystem messages) i) = .error (e i)) →
      (sendChatRequestStatus messages transport).2.2 =
        StatusEvent.thinking ::
          ((List.range 9).map fun i => StatusEvent.retrying (i + 1) 10 (e i)) ∧
      ((sendChatRequestStatus messages transport).2.2).length = 10 ∧
      (sendChatRequestStatus messages transport).2.1 = 10) ∧
    (∀ k, k < 10 →
      (∀ i, i < k → attemptResult (transport (messagesWithSystem messages) i) = .error (e i)) →
      attemptResult (transport (messagesWithSystem messages) k) = .ok c →
      (sendChatRequestStatus messages transport).2.2 =
        StatusEvent.thinking ::
          ((List.range k).map fun i => StatusEvent.retrying (i + 1) 10 (e i)) ∧
      ((sendChatRequestStatus messages transport).2.2).length = k + 1 ∧
      (sendChatRequestStatus messages transport).2.1 = k + 1) := by
  refine ⟨?_, ?_, ?_⟩
  · simp only [sendChatRequestStatus]
    rw [List.countP_cons_of_pos _ _ (by simp)]
    have hno := runAttemptsStatus_no_thinking (transport (messagesWithSystem messages))
      (List.range (maxRetries + 1))
    rw [List.countP_eq_zero.mpr]
    · intro ev hev
      simp only [decide_eq_true_eq]
      intro hth
      exact hno (hth ▸ hev)
  · intro hfail
    have hne : List.range (maxRetries + 1) ≠ [] := by decide
    have heq := runAttemptsStatus_all_fail (transport (messagesWithSystem messages)) e
      (List.range (maxRetries + 1)) hne
      (fun i hi => hfail i (by simpa [maxRetries] using List.mem_range.mp hi))
    have hdrop : (List.range (maxRetries + 1)).dropLast = List.range 9 := rfl
    rw [hdrop] at heq
    simp only [maxRetries, Nat.reduceAdd] at heq
    refine ⟨?_, ?_, ?_⟩ <;> simp [sendChatRequestStatus, heq, maxRetries]
  · intro k hk hfail hok
    have hsplit : List.range 10 =
        List.range k ++ k :: ((List.range (9 - k)).map fun x => (k + 1) + x) :=
      range_ten_decomp k hk
    have heq := runAttemptsStatus_prefix_fail_ok
      (transport (messagesWithSystem messages)) e c (List.range k) k
      ((List.range (9 - k)).map fun x => (k + 1) + x)
      (fun j hj => hfail j (List.mem_range.mp hj)) hok
    simp only [maxRetries, Nat.reduceAdd] at heq
    refine ⟨?_, ?_, ?_⟩ <;>
      simp [sendChatRequestStatus, hsplit, heq, maxRetries]

theorem sendChatRequestStatus_observer_witness :
    (sendChatRequestStatus []
        (fun _ i => if i < 2 then FetchResult.netError "x" else FetchResult.content "hi")).2.2 =
      StatusEvent.thinking ::
        ((List.range 2).map fun i =>
          StatusEvent.retrying (i + 1) 10 ((fun _ => "x") i)) ∧
    ((sendChatRequestStatus []
        (fun _ i => if i < 2 then FetchResult.netError "x"
          else FetchResult.content "hi")).2.2).length = 2 + 1 ∧
    (sendChatRequestStatus []
        (fun _ i => if i < 2 then FetchResult.netError "x"
          else FetchResult.content "hi")).2.1 = 2 + 1 :=
  (sendChatRequestStatus_observer []
      (fun _ i => if i < 2 then FetchResult.netError "x" else FetchResult.content "hi")
      (fun _ => "x") "hi").2.2 2 (by omega)
    (fun i hi => by interval_cases i <;> rfl) rfl

/-! ### Thread name generation (C10) -/

/-- C10: `generateThreadName` never throws: a failed backend call or an
empty/whitespace-only reply yields the fallback "Chat", otherwise the reply
is trimmed and truncated to 50 characters; in every case the result is a
non-empty string of length at most 50. -/
theorem generateThreadName_total (u : String)
    (transport : List ChatMessage → Nat → FetchResult) :
    (generateThreadName u transport ≠ "" ∧ (generateThreadName u transport).length ≤ 50) ∧
    (∀ e, (sendChatRequest [⟨Role.system, threadNamePrompt⟩, ⟨Role.user, u⟩] transport).1
        = .error e → generateThreadName u transport = "Chat") ∧
    (∀ c, (sendChatRequest [⟨Role.system, threadNamePrompt⟩, ⟨Role.user, u⟩] transport).1
        = .ok c →
      (jsTrim c.toList = [] → generateThreadName u transport = "Chat") ∧
      (jsTrim c.toList ≠ [] →
        generateThreadName u transport = ((jsTrim c.toList).take 50).asString)) := by
  cases hres : (sendChatRequest [⟨Role.system, threadNamePrompt⟩, ⟨Role.user, u⟩]
      transport).1 with
  | error e =>
    have hg : generateThreadName u transport = "Chat" := by
      simp only [generateThreadName, hres]
    exact ⟨⟨by rw [hg]; decide, by rw [hg]; decide⟩, fun e' _ => hg,
      fun c hc => by simp [hres] at hc⟩
  | ok c =>
    by_cases hjt : jsTrim c.toList = []
    · have hg : generateThreadName u transport = "Chat" := by
        simp only [generateThreadName, hres]
        rw [hjt, if_pos (by decide)]
      refine ⟨⟨by rw [hg]; decide, by rw [hg]; decide⟩, fun e' he' => by simp [hres] at he',
        fun c' hc' => ?_⟩
      have hcc : c' = c := by
        injection hc' with h
        exact h.symm
      subst hcc
      exact ⟨fun _ => hg, fun h => absurd hjt h⟩
    · have hne : ((jsTrim c.toList).take 50).asString ≠ "" := by
        cases hcons : jsTrim c.toList with
        | nil => exact absurd hcons hjt
        | cons x xs =>
          intro h
          rw [List.asString_eq] at h
          simp at h
      have hg : generateThreadName u transport = ((jsTrim c.toList).take 50).asString := by
        simp only [generateThreadName, hres, if_neg hne]
      refine ⟨⟨by rw [hg]; exact hne, ?_⟩, fun e' he' => by simp [hres] at he',
        fun c' hc' => ?_⟩
      · rw [hg, List.length_asString, List.length_take]
        omega
      · have hcc : c' = c := by
          injection hc' with h
          exact h.symm
        subst hcc
        exact ⟨fun h => absurd h hjt, fun _ => hg⟩

theorem generateThreadName_total_witness :
    generateThreadName "Hello" (fun _ _ => FetchResult.content "   ") = "Chat" ∧
    generateThreadName "Hello" (fun _ _ => FetchResult.netError "API error") = "Chat" :=
  ⟨((generateThreadName_total "Hello" (fun _ _ => FetchResult.content "   ")).2.2
      "   " rfl).1 (by decide),
   (generateThreadName_total "Hello" (fun _ _ => FetchResult.netError "API error")).2.1
      (exhaustedMsg "API error") rfl⟩

/-! ### Message authorization (C5) -/

/-- C5 counterexample: with an owner identity that is resolvable but empty
(user id "" in the starter metadata) and an author with the same empty id,
every condition of the claim holds — the author is not a bot, the channel
is a thread, an owner id is resolved, and the author id equals it — yet
`shouldProcessMessage` returns false, because the code treats the empty
owner id as falsy. -/
theorem shouldProcessMessage_empty_id_counterexample :
    shouldProcessMessage
        ⟨⟨"", false⟩, ChannelKind.thread (Except.ok (some ⟨some ⟨"", false⟩, none⟩))⟩
        "bot-789" = false ∧
    (⟨"", false⟩ : DUser).bot = false ∧
    getThreadAuthorId (Except.ok (some ⟨some ⟨"", false⟩, none⟩)) = some "" ∧
    (⟨"", false⟩ : DUser).id = "" := by
  refine ⟨rfl, rfl, rfl, rfl⟩

/-- C5 (amended): `shouldProcessMessage` returns true iff the author is not
a bot, the channel is a thread, an owner identity is resolvable from the
starter message's interaction metadata and is non-empty, and the author's
identity equals it; a rejected starter-message fetch, a missing starter
message, and absent metadata all resolve to no owner (reject) without any
error escaping. -/
theorem shouldProcessMessage_iff (msg : DMessage) (botId : String) :
    (shouldProcessMessage msg botId = true ↔
      (msg.author.bot = false ∧
        ∃ f, msg.channel = ChannelKind.thread f ∧
          ∃ uid, getThreadAuthorId f = some uid ∧ uid ≠ "" ∧ msg.author.id = uid)) ∧
    (∀ s, getThreadAuthorId (Except.error s) = none) ∧
    getThreadAuthorId (Except.ok none) = none ∧
    (∀ sm : StarterMessage, sm.interactionMetadataUser = none →
      sm.interactionUser = none → getThreadAuthorId (Except.ok (some sm)) = none) := by
  obtain ⟨⟨aid, abot⟩, ch⟩ := msg
  refine ⟨?_, fun s => rfl, rfl, ?_⟩
  · constructor
    · intro h
      cases abot with
      | true => simp [shouldProcessMessage] at h
      | false =>
        cases ch with
        | other => simp [shouldProcessMessage] at h
        | thread f =>
          simp only [shouldProcessMessage, if_neg (Bool.false_ne_true)] at h
          cases huid : getThreadAuthorId f with
          | none => rw [huid] at h; cases h
          | some uid =>
            simp only [huid] at h
            by_cases hemp : uid = ""
            · rw [if_pos hemp] at h; cases h
            · rw [if_neg hemp] at h
              exact ⟨rfl, f, rfl, uid, huid, hemp, by simpa using h⟩
    · rintro ⟨hbot, f, hch, uid, huid, hemp, hid⟩
      simp only at hbot hid
      cases hch
      subst hbot
      simp [shouldProcessMessage, huid, hemp, hid]
  · intro sm h1 h2
    simp [getThreadAuthorId, h1, h2]

theorem shouldProcessMessage_iff_witness :
    getThreadAuthorId (Except.ok (some ⟨none, none⟩)) = none ∧
    shouldProcessMessage ⟨⟨"u", false⟩, ChannelKind.other⟩ "b" = false :=
  ⟨(shouldProcessMessage_iff ⟨⟨"u", false⟩, ChannelKind.other⟩ "b").2.2.2 ⟨none, none⟩ rfl rfl,
   by decide⟩

/-! ### Conversation history (C6) -/

theorem tsLe_trans : ∀ a b c : StoredMessage, tsLe a b → tsLe b c → tsLe a c := by
  intro a b c
  simp only [tsLe, decide_eq_true_eq]
  omega

theorem tsLe_total : ∀ a b : StoredMessage, (tsLe a b || tsLe b a) = true := by
  intro a b
  simp only [tsLe, Bool.or_eq_true, decide_eq_true_eq]
  omega

theorem filterMap_toChatMessage (l : List StoredMessage) :
    l.filterMap toChatMessage = (l.filter keepMessage).map toHistoryEntry := by
  induction l with
  | nil => rfl
  | cons a l ih =>
    by_cases h : keepMessage a = true
    · simp [List.filterMap_cons, List.filter_cons, toChatMessage, h, ih]
    · simp [List.filterMap_cons, List.filter_cons, toChatMessage, h, ih]

/-- Stability of the timestamp sort: the messages in any single
timestamp class appear in the sorted output exactly in their fetched
order. -/
theorem mergeSort_tsLe_stable (l : List StoredMessage) (t : Nat) :
    (l.mergeSort tsLe).filter (fun m => m.createdTimestamp == t) =
      l.filter (fun m => m.createdTimestamp == t) := by
  have hsub : List.Sublist (l.filter (fun m => m.createdTimestamp == t)) l :=
    List.filter_sublist l
  have hpw : (l.filter (fun m => m.createdTimestamp == t)).Pairwise (fun a b => tsLe a b) := by
    apply List.pairwise_of_forall_mem_list
    intro a ha b hb
    have ha' := (List.mem_filter.mp ha).2
    have hb' := (List.mem_filter.mp hb).2
    simp only [beq_iff_eq] at ha' hb'
    simp [tsLe, ha', hb']
  have h1 : List.Sublist (l.filter (fun m => m.createdTimestamp == t)) (l.mergeSort tsLe) :=
    List.sublist_mergeSort tsLe_trans tsLe_total hpw hsub
  have h2 : List.Perm ((l.mergeSort tsLe).filter (fun m => m.createdTimestamp == t))
      (l.filter (fun m => m.createdTimestamp == t)) :=
    (List.mergeSort_perm l tsLe).filter _
  have h3 : List.Sublist (l.filter (fun m => m.createdTimestamp == t))
      ((l.mergeSort tsLe).filter (fun m => m.createdTimestamp == t)) := by
    have h4 := h1.filter (fun m => m.createdTimestamp == t)
    rwa [List.filter_eq_self.mpr (fun a ha => (List.mem_filter.mp ha).2)] at h4
  exact (h3.eq_of_length h2.length_eq.symm).symm

/-- C6: `buildConversationHistory` returns at most `limit` entries; it is
exactly the stable timestamp-ascending sort of the fetched messages with
system and empty-content entries dropped, bot messages mapped to role
`assistant` and human messages to role `user`; ties keep their fetched
order; and it is empty when no eligible message exists. -/
theorem buildConversationHistory_spec (timeline : List StoredMessage) (limit : Nat) :
    (buildConversationHistory timeline limit).length ≤ limit ∧
    buildConversationHistory timeline limit =
      (sortedEligible timeline limit).map toHistoryEntry ∧
    (sortedEligible timeline limit).Pairwise
      (fun a b => a.createdTimestamp ≤ b.createdTimestamp) ∧
    (∀ msg ∈ sortedEligible timeline limit, keepMessage msg = true) ∧
    (∀ t : Nat, ((fetchMessages timeline limit).mergeSort tsLe).filter
        (fun m => m.createdTimestamp == t) =
      (fetchMessages timeline limit).filter (fun m => m.createdTimestamp == t)) ∧
    ((∀ msg ∈ fetchMessages timeline limit, keepMessage msg = false) →
      buildConversationHistory timeline limit = []) := by
  refine ⟨?_, ?_, ?_, ?_, ?_, ?_⟩
  · calc (buildConversationHistory timeline limit).length
        ≤ ((fetchMessages timeline limit).mergeSort tsLe).length :=
          List.length_filterMap_le _ _
      _ = (fetchMessages timeline limit).length := List.length_mergeSort _
      _ ≤ limit := by
          rw [fetchMessages, List.length_take]
          omega
  · exact filterMap_toChatMessage _
  · have hs := List.sorted_mergeSort tsLe_trans tsLe_total (fetchMessages timeline limit)
    have hsub : List.Sublist (sortedEligible timeline limit)
        ((fetchMessages timeline limit).mergeSort tsLe) := List.filter_sublist _
    exact (hs.sublist hsub).imp (fun h => by simpa [tsLe] using h)
  · intro msg hmsg
    exact (List.mem_filter.mp hmsg).2
  · intro t
    exact mergeSort_tsLe_stable _ t
  · intro hall
    rw [buildConversationHistory, List.filterMap_eq_nil_iff]
    intro a ha
    have := hall a (List.mem_mergeSort.mp ha)
    simp [toChatMessage, this]

theorem buildConversationHistory_spec_witness :
    buildConversationHistory [⟨"", false, false, 5⟩, ⟨"x", true, false, 6⟩] 50 = [] :=
  (buildConversationHistory_spec [⟨"", false, false, 5⟩, ⟨"x", true, false, 6⟩] 50).2.2.2.2.2
    (by decide)
